import Mathlib

/-!
Verification of the fatmod FAT32 image editor (src/unnamed/part_001).

The definitions below are a shallow embedding of the C source.  The FAT is
modelled as a total function from cluster numbers to 32-bit entry values,
directory slots as parsed records of the fields the program reads, and the
file operations (`write_bytes_to_file`, `delete_file`, `create_file_entry`,
the root-directory scan and the name codec) as pure Lean functions that
mirror the control flow of the corresponding C functions line by line.
Disk I/O is modelled as always succeeding; the cluster numbers that the
write path passes to read_cluster/write_cluster are collected in a trace.
-/

namespace Fatmod

/-- SECTORSIZE constant from the source (512 bytes). -/
def SECTORSIZE : Nat := 512

/-- CLUSTERSIZE constant from the source (1024 bytes). -/
def CLUSTERSIZE : Nat := 1024

/-- FAT_TABLE_END_OF_FILE_VALUE from the source (0x0FFFFFF8). -/
def FAT_EOF : Nat := 0x0FFFFFF8

/-- MAX_NUMBER_OF_CLUSTERS_FAT_TABLE from the source (2^28). -/
def MAX_CLUSTERS : Nat := 0x10000000

/-- Geometry derived at startup: root directory cluster number and the
computed usable cluster count. -/
structure Geo where
  rootCluster : Nat
  usableClusters : Nat

/-- The FAT, as a total map from cluster number to 32-bit entry value. -/
abbrev Fat := Nat → Nat

/-- write_fat_table_entry: functional update of one FAT entry. -/
def fatWrite (fat : Fat) (c v : Nat) : Fat :=
  fun x => if x = c then v else fat x

/-- Boot-sector fields used by main when computing the usable cluster count. -/
structure BootParams where
  totalSectors : Nat
  reservedSectors : Nat
  fatLength : Nat
  numFats : Nat
  sectorsPerCluster : Nat

/-- Translation of the usable-cluster computation in main (lines 208-218):
`usable_clusters_size = (total - reserved - fat_size*nfats) / sec_per_clus`,
clamped to 2^28, then reduced to
`usable_fat_table_size = fat_size * SECTORSIZE / 4 - 2 * 4` when the latter
is smaller or equal. -/
def usableClustersSize (b : BootParams) : Nat :=
  let u0 := (b.totalSectors - b.reservedSectors - b.fatLength * b.numFats) / b.sectorsPerCluster
  let u1 := if u0 > MAX_CLUSTERS then MAX_CLUSTERS else u0
  let uf := b.fatLength * SECTORSIZE / 4 - 2 * 4
  if uf ≤ u1 then uf else u1

/-- The free-cluster scan inside write_bytes_to_file (lines 399-406):
starting at cluster `j`, scan `k` successive FAT entries and return the
first one whose entry is 0 (FAT_TABLE_FREE_CLUSTER_VALUE). -/
def findFreeFrom (fat : Fat) (j : Nat) : Nat → Option Nat
  | 0 => none
  | k + 1 => if fat j = 0 then some j else findFreeFrom fat (j + 1) k

/-- The full scan `for (j = root+1; j < usable_clusters_size; j++)`. -/
def findFreeCluster (geo : Geo) (fat : Fat) : Option Nat :=
  findFreeFrom fat (geo.rootCluster + 1) (geo.usableClusters - (geo.rootCluster + 1))

/-- Outcome of the allocation loop: either the updated FAT together with the
final current cluster, the (possibly updated) first cluster of the entry and
the list of allocated clusters, or failure with the partially updated FAT
(the C code returns FAILURE mid-loop without rolling back FAT writes). -/
inductive AllocOut where
  | ok (fat : Fat) (current first : Nat) (allocated : List Nat)
  | fail (fat : Fat)

/-- Whether the allocation succeeded. -/
def AllocOut.isOk : AllocOut → Bool
  | .ok _ _ _ _ => true
  | .fail _ => false

/-- The allocated-cluster list (empty on failure). -/
def AllocOut.allocated : AllocOut → List Nat
  | .ok _ _ _ l => l
  | .fail _ => []

/-- The cluster-allocation loop of write_bytes_to_file (lines 397-434):
repeat `k` times: find the first free cluster; if the current cluster is 0
install it as the entry's first cluster, otherwise link it after the current
cluster; mark it end-of-chain; make it the current cluster. -/
def allocClusters (geo : Geo) : Nat → Fat → Nat → Nat → AllocOut
  | 0, fat, current, first => .ok fat current first []
  | k + 1, fat, current, first =>
    match findFreeCluster geo fat with
    | none => .fail fat
    | some free =>
      let first' := if current = 0 then free else first
      let fat1 := if current = 0 then fat else fatWrite fat current free
      let fat2 := fatWrite fat1 free FAT_EOF
      match allocClusters geo k fat2 free first' with
      | .ok f c fi l => .ok f c fi (free :: l)
      | .fail f => .fail f

/-- Following the FAT chain `k` steps from cluster `c`
(repeated get_next_FAT_table_entry). -/
def walkSteps (fat : Fat) : Nat → Nat → Nat
  | c, 0 => c
  | c, k + 1 => walkSteps fat (fat c) k

/-- The cluster-count formula used twice in write_bytes_to_file
(line 383-384): `n / CLUSTERSIZE + (n % CLUSTERSIZE != 0)`. -/
def clusterCountOf (n : Nat) : Nat :=
  n / CLUSTERSIZE + if n % CLUSTERSIZE ≠ 0 then 1 else 0

/-- Ceiling division as the specification states it. -/
def specCeilDiv (a b : Nat) : Nat := (a + b - 1) / b

/-- The byte-writing loop of write_bytes_to_file (lines 469-494), recorded
as the sequence of cluster numbers passed to read_cluster/write_cluster:
starting in `current` at intra-cluster offset `off` with `l` bytes left, a
cluster-boundary crossing writes the cluster back, advances along the FAT
and reads the next cluster; at the end the final cluster is written back. -/
def writeLoopTrace (fat : Fat) : Nat → Nat → Nat → List Nat
  | current, _, 0 => [current]
  | current, off, l + 1 =>
    if off + 1 = CLUSTERSIZE then
      let nxt := fat current
      current :: nxt :: writeLoopTrace fat nxt 0 l
    else
      writeLoopTrace fat current (off + 1) l

/-- Errors of the write path (after the entry has been located). -/
inductive WErr where
  | invalidOffset
  | noSpace
deriving DecidableEq

/-- Result of write_bytes_to_file: error flag, final FAT, the directory
entry's persisted size and first cluster, the list of clusters allocated by
this call, and the trace of clusters addressed via read/write_cluster
(the leading element is the root-directory cluster read when locating the
entry). -/
structure WriteResult where
  err : Option WErr
  fat : Fat
  size : Nat
  first : Nat
  allocated : List Nat
  trace : List Nat

/-- The allocation phase of write_bytes_to_file (lines 383-435): compute
`file_cluster_size` (the clusters the file has) and the clusters needed for
the new extent; if more are needed, walk to the last cluster of the chain
and run the allocation loop; otherwise leave everything unchanged. -/
def allocStep (geo : Geo) (fat : Fat) (size first off len : Nat) : AllocOut :=
  if clusterCountOf size < clusterCountOf (off + len) then
    allocClusters geo (clusterCountOf (off + len) - clusterCountOf size) fat
      (walkSteps fat first (clusterCountOf size - 1)) first
  else .ok fat first first []

/-- Translation of write_bytes_to_file (lines 362-498) for an entry that
has been located, with current size `size` and first cluster `first`.
Mirrors the source: reject `start_offset > size`; allocate missing clusters
via `allocStep`; update the size if extended; persist the entry; then walk
`start_offset / CLUSTERSIZE` steps from the entry's (possibly updated)
first cluster and run the byte loop. -/
def writeBytesToFile (geo : Geo) (fat : Fat) (size first off len : Nat) : WriteResult :=
  if size < off then
    { err := some .invalidOffset, fat := fat, size := size, first := first,
      allocated := [], trace := [geo.rootCluster] }
  else
    match allocStep geo fat size first off len with
    | .fail f =>
      { err := some .noSpace, fat := f, size := size, first := first,
        allocated := [], trace := [geo.rootCluster] }
    | .ok fat2 _ first2 alloc =>
      { err := none, fat := fat2,
        size := if size < off + len then off + len else size,
        first := first2, allocated := alloc,
        trace := geo.rootCluster :: walkSteps fat2 first2 (off / CLUSTERSIZE) ::
          writeLoopTrace fat2 (walkSteps fat2 first2 (off / CLUSTERSIZE))
            (off % CLUSTERSIZE) len }

/-! ### Name handling -/

/-- C `isalnum` on a byte value (ASCII digits, uppercase, lowercase). -/
def isalnumB (b : Nat) : Bool :=
  (48 ≤ b && b ≤ 57) || (65 ≤ b && b ≤ 90) || (97 ≤ b && b ≤ 122)

/-- The character class accepted while decoding a stored short name
(read_root_directory lines 776-777): alphanumeric, '-' (45) or '_' (95). -/
def isNameChar (b : Nat) : Bool :=
  isalnumB b || b == 45 || b == 95

/-- C `toupper` on a byte value. -/
def upperByte (b : Nat) : Nat :=
  if 97 ≤ b ∧ b ≤ 122 then b - 32 else b

/-- check_set_file_name uppercases the input buffer in place. -/
def upperName (s : List Nat) : List Nat := s.map upperByte

/-- check_set_file_name (lines 999-1024): length at most 11, neither first
nor last byte a '.' (46) or ' ' (32), and every byte (after uppercasing)
alphanumeric, '-', '_' or '.'. -/
def checkFileName (s : List Nat) : Bool :=
  s.length ≤ 11 &&
  !(s.headD 0 == 46) && !(s.getLastD 0 == 46) &&
  !(s.headD 0 == 32) && !(s.getLastD 0 == 32) &&
  s.all (fun c => isNameChar (upperByte c) || upperByte c == 46)

/-- The first encoding loop of create_file_entry (lines 566-578), writing
the 8 name bytes.  The buffer index of the C code is modelled by the
remaining suffix of the (zero-extended) input buffer: a '.' at the cursor
sets the dot flag and advances; with the flag set a ' ' (32) is produced,
otherwise the byte at the cursor is copied and the cursor advances.
Returns the produced bytes and the remaining suffix. -/
def encLoop1 : Nat → Bool → List Nat → (List Nat × List Nat)
  | 0, _, s => ([], s)
  | k + 1, dot, s =>
    let found := s.headD 0 = 46
    let dot' := if found then true else dot
    let s' := if found then s.tail else s
    if dot' then
      let r := encLoop1 k true s'
      (32 :: r.1, r.2)
    else
      let r := encLoop1 k false s.tail
      (s.headD 0 :: r.1, r.2)

/-- The second encoding loop of create_file_entry (lines 580-585), copying
extension bytes until the input's NUL terminator (reading past the string's
end yields 0 from the zero-filled buffer). -/
def encLoop2 : Nat → List Nat → List Nat
  | 0, _ => []
  | k + 1, s => if s.headD 0 = 0 then [] else s.headD 0 :: encLoop2 k s.tail

/-- The 11-byte short name produced by create_file_entry for input `s` (the
entry buffer was zeroed beforehand, so extension bytes not written by the
second loop remain 0). -/
def encodeName (s : List Nat) : List Nat :=
  let r := encLoop1 8 false s
  let ext := encLoop2 3 r.2
  r.1 ++ ext ++ List.replicate (3 - ext.length) 0

/-- The display-name decoding of read_root_directory (lines 770-802):
collect name bytes while they are name characters, likewise the extension
bytes, and join with a '.' iff the extension part is nonempty. -/
def decodeName (nm : List Nat) : List Nat :=
  let base := (nm.take 8).takeWhile isNameChar
  let ext := ((nm.drop 8).take 3).takeWhile isNameChar
  base ++ if ext = [] then [] else 46 :: ext

/-- The short-name encoding exactly as the specification describes it
(section 4.4 encode_name): split on the first '.', left-justify the name in
8 bytes and the extension in 3 bytes, pad both with ' '.  Used only to
compare the source's behaviour against the specification's words. -/
def encodeNameSpec (s : List Nat) : List Nat :=
  let base := s.takeWhile (fun c => !(c == 46))
  let ext := s.drop (base.length + 1)
  (base.take 8 ++ List.replicate (8 - base.length) 32).take 8 ++
    (ext.take 3 ++ List.replicate (3 - ext.length) 32).take 3

/-- Shape test for a valid 8.3 input: a nonempty name part of at most 8
name characters, optionally followed by '.' and a nonempty extension of at
most 3 name characters. -/
def is83Shape (s : List Nat) : Bool :=
  let base := s.takeWhile (fun c => !(c == 46))
  let rest := s.drop base.length
  (1 ≤ base.length && base.length ≤ 8 && base.all isNameChar) &&
  (rest == [] ||
    (rest.headD 0 == 46 && 1 ≤ rest.tail.length && rest.tail.length ≤ 3 &&
      rest.tail.all isNameChar))

/-! ### Directory -/

/-- A parsed 32-byte directory entry, with the fields the program reads. -/
structure DirEntry where
  name : List Nat
  attr : Nat
  starthi : Nat
  start : Nat
  size : Nat
  ctimeCs : Nat
  ctime : Nat
  cdate : Nat
  adate : Nat
  time : Nat
  date : Nat
deriving DecidableEq, Inhabited

/-- Byte 0 of a directory slot. -/
def name0 (e : DirEntry) : Nat := e.name.headD 0

/-- First cluster of an entry: `starthi << 16 | start`. -/
def firstClusterOf (e : DirEntry) : Nat := (e.starthi <<< 16) ||| e.start

/-- The matching test of read_root_directory with option FIND_GIVEN_ENTRY:
the slot is live (byte 0 not 0x00/0xE5), is a regular file (attr 0x20) and
its decoded name equals the (uppercased) input name. -/
def matchesInput (input : List Nat) (e : DirEntry) : Bool :=
  !(name0 e == 0) && !(name0 e == 0xE5) && e.attr == 0x20 &&
    decodeName e.name == input

/-- Index of the first list element satisfying `p` (the directory loop of
read_root_directory, which scans slots in order). -/
def findFirstIdx (p : DirEntry → Bool) : List DirEntry → Option Nat
  | [] => none
  | e :: es => if p e then some 0 else (findFirstIdx p es).map (· + 1)

/-- read_root_directory with FIND_GIVEN_ENTRY: index of the first matching
live file entry. -/
def findEntryIdx (dir : List DirEntry) (input : List Nat) : Option Nat :=
  findFirstIdx (matchesInput input) dir

/-- read_root_directory with FIND_FREE_ENTRY: index of the first slot whose
byte 0 is 0x00 or 0xE5. -/
def findFreeIdx (dir : List DirEntry) : Option Nat :=
  findFirstIdx (fun e => name0 e == 0 || name0 e == 0xE5) dir

/-- Wall-clock timestamp fields, passed in as parameters. -/
structure TimeInfo where
  ctimeCs : Nat
  ctime : Nat
  cdate : Nat
  adate : Nat
  time : Nat
  date : Nat

/-- The fresh entry built by create_file_entry: encoded name, attribute
0x20, timestamps from the wall clock, first cluster 0, size 0. -/
def freshEntry (input : List Nat) (t : TimeInfo) : DirEntry :=
  { name := encodeName input, attr := 0x20, starthi := 0, start := 0, size := 0,
    ctimeCs := t.ctimeCs, ctime := t.ctime, cdate := t.cdate, adate := t.adate,
    time := t.time, date := t.date }

/-- Outcome of create_file_entry; each outcome carries the final FAT. -/
inductive CreateOut where
  | alreadyExists (fat : Fat)
  | directoryFull (fat : Fat)
  | created (fat : Fat) (dir : List DirEntry)

/-- Translation of create_file_entry (lines 546-617): fail if a live entry
with the given name exists, fail if no free slot exists, otherwise write
the fresh entry into the first free slot.  The source contains no call to
write_fat_table_entry, so the FAT passes through unmodified. -/
def createFileEntry (fat : Fat) (dir : List DirEntry) (input : List Nat) (t : TimeInfo) :
    CreateOut :=
  match findEntryIdx dir input with
  | some _ => .alreadyExists fat
  | none =>
    match findFreeIdx dir with
    | none => .directoryFull fat
    | some i => .created fat (dir.set i (freshEntry input t))

/-! ### Delete -/

/-- The chain-freeing loop of delete_file (lines 514-521), fuelled.  The C
loop `while (current < FAT_EOF && current > 1)` frees the current cluster,
moves to `next` and re-reads the FAT for the new next.  `none` means the
fuel ran out before the loop exited. -/
def deleteLoop (fat : Fat) : Nat → Nat → Nat → Option Fat
  | 0, _, _ => none
  | fuel + 1, current, next =>
    if current < FAT_EOF ∧ 1 < current then
      let fat' := fatWrite fat current 0
      deleteLoop fat' fuel next (fat' next)
    else some fat

/-- Tombstoning a directory slot: byte 0 of the name is overwritten with
0xE5 (delete_file line 524). -/
def tombstone (e : DirEntry) : DirEntry :=
  { e with name := 0xE5 :: e.name.tail }

/-- Outcome of delete_file. -/
inductive DeleteOut where
  | notFound
  | running
  | ok (fat : Fat) (dir : List DirEntry)

/-- Whether delete_file completed. -/
def DeleteOut.isOk : DeleteOut → Bool
  | .ok _ _ => true
  | _ => false

/-- Translation of delete_file (lines 501-542): locate the entry, free the
chain starting at its first cluster, then tombstone the slot.  `running`
reports that the given fuel did not let the C loop finish. -/
def deleteFile (fuel : Nat) (fat : Fat) (dir : List DirEntry) (input : List Nat) : DeleteOut :=
  match findEntryIdx dir input with
  | none => .notFound
  | some i =>
    let e := dir.getD i default
    let first := firstClusterOf e
    match deleteLoop fat fuel first (fat first) with
    | none => .running
    | some fat' => .ok fat' (dir.set i (tombstone e))

/-! ### Chain well-formedness -/

/-- The links of a cluster chain: consecutive elements are joined by FAT
entries and the last element's entry is an end-of-chain mark. -/
def chainLinks (fat : Fat) : List Nat → Prop
  | [] => True
  | [c] => FAT_EOF ≤ fat c
  | c :: c' :: cs => fat c = c' ∧ chainLinks fat (c' :: cs)

/-- A well-formed cluster chain for a directory entry with first cluster
`first`: the list of reachable clusters, in order.  An empty chain
corresponds to `first = 0`. -/
structure WFChain (geo : Geo) (fat : Fat) (first : Nat) (cs : List Nat) : Prop where
  head_eq : cs.headD 0 = first
  links : chainLinks fat cs
  nodup : cs.Nodup
  bounds : ∀ c ∈ cs, 2 ≤ c ∧ c ≤ geo.usableClusters + 1 ∧ c < FAT_EOF

/-! ### Basic lemmas about the scans -/

theorem findFirstIdx_eq_none {p : DirEntry → Bool} {l : List DirEntry} :
    findFirstIdx p l = none ↔ ∀ e ∈ l, p e = false := by
  induction l with
  | nil => simp [findFirstIdx]
  | cons e es ih =>
    rw [findFirstIdx]
    by_cases hp : p e
    · simp [hp]
    · simp only [if_neg hp, Option.map_eq_none', ih, List.mem_cons]
      constructor
      · rintro h x (rfl | hx)
        · exact Bool.eq_false_iff.mpr hp
        · exact h x hx
      · intro h x hx
        exact h x (Or.inr hx)

theorem findFirstIdx_eq_some {p : DirEntry → Bool} {l : List DirEntry} {i : Nat}
    (h : findFirstIdx p l = some i) :
    i < l.length ∧ p (l.getD i default) = true ∧
      ∀ j, j < i → p (l.getD j default) = false := by
  induction l generalizing i with
  | nil => simp [findFirstIdx] at h
  | cons e es ih =>
    rw [findFirstIdx] at h
    by_cases hp : p e
    · rw [if_pos hp] at h
      cases h
      exact ⟨by simp, hp, by omega⟩
    · rw [if_neg hp] at h
      rcases Option.map_eq_some'.mp h with ⟨i', hi', rfl⟩
      obtain ⟨h1, h2, h3⟩ := ih hi'
      refine ⟨by simpa using h1, by simpa using h2, ?_⟩
      intro j hj
      cases j with
      | zero => simpa using Bool.eq_false_iff.mpr hp
      | succ j => simpa using h3 j (by omega)

theorem findFreeFrom_some {fat : Fat} {k : Nat} {j c : Nat}
    (h : findFreeFrom fat j k = some c) :
    fat c = 0 ∧ j ≤ c ∧ c < j + k ∧ ∀ x, j ≤ x → x < c → fat x ≠ 0 := by
  induction k generalizing j with
  | zero => simp [findFreeFrom] at h
  | succ k ih =>
    rw [findFreeFrom] at h
    by_cases h0 : fat j = 0
    · rw [if_pos h0] at h
      cases h
      exact ⟨h0, le_refl _, by omega, fun x hx1 hx2 => by omega⟩
    · rw [if_neg h0] at h
      obtain ⟨h1, h2, h3, h4⟩ := ih h
      refine ⟨h1, by omega, by omega, fun x hx1 hx2 => ?_⟩
      rcases Nat.eq_or_lt_of_le hx1 with rfl | hx
      · exact h0
      · exact h4 x hx hx2

theorem findFreeFrom_none {fat : Fat} {k : Nat} {j : Nat}
    (h : findFreeFrom fat j k = none) :
    ∀ x, j ≤ x → x < j + k → fat x ≠ 0 := by
  induction k generalizing j with
  | zero => omega
  | succ k ih =>
    rw [findFreeFrom] at h
    by_cases h0 : fat j = 0
    · rw [if_pos h0] at h
      cases h
    · rw [if_neg h0] at h
      intro x hx1 hx2
      rcases Nat.eq_or_lt_of_le hx1 with rfl | hx
      · exact h0
      · exact ih h x hx (by omega)

theorem findFreeCluster_some {geo : Geo} {fat : Fat} {c : Nat}
    (h : findFreeCluster geo fat = some c) :
    fat c = 0 ∧ geo.rootCluster + 1 ≤ c ∧ c < geo.usableClusters ∧
      ∀ x, geo.rootCluster + 1 ≤ x → x < c → fat x ≠ 0 := by
  obtain ⟨h1, h2, h3, h4⟩ := findFreeFrom_some h
  exact ⟨h1, h2, by omega, h4⟩

theorem findFreeCluster_none {geo : Geo} {fat : Fat}
    (h : findFreeCluster geo fat = none) :
    ∀ x, geo.rootCluster + 1 ≤ x → x < geo.usableClusters → fat x ≠ 0 := by
  intro x hx1 hx2
  exact findFreeFrom_none h x hx1 (by omega)

/-! ### Allocation lemmas -/

theorem allocClusters_avoid {geo : Geo} {k : Nat} {fat : Fat} {current first x : Nat}
    {f : Fat} {c fi : Nat} {l : List Nat}
    (h : allocClusters geo k fat current first = .ok f c fi l) (hx : fat x ≠ 0) :
    x ∉ l := by
  induction k generalizing fat current first f c fi l with
  | zero =>
    rw [allocClusters] at h
    cases h
    simp
  | succ k ih =>
    rw [allocClusters] at h
    simp only [] at h
    split at h
    · cases h
    · rename_i free hfind
      split at h
      · rename_i f' c' fi' l' hrec
        cases h
        obtain ⟨hfree0, hge, hlt, -⟩ := findFreeCluster_some hfind
        have hxf : x ≠ free := fun hh => hx (hh ▸ hfree0)
        have hx2 : fatWrite (if current = 0 then fat else fatWrite fat current free)
            free FAT_EOF x ≠ 0 := by
          simp only [fatWrite, ite_apply]
          split_ifs with h1 h2 h3
          · simp [FAT_EOF]
          · exact hx
          · omega
          · exact hx
        simp only [List.mem_cons, not_or]
        exact ⟨hxf, ih hrec hx2⟩
      · cases h

theorem allocClusters_nodup_range {geo : Geo} {k : Nat} {fat : Fat} {current first : Nat}
    {f : Fat} {c fi : Nat} {l : List Nat}
    (h : allocClusters geo k fat current first = .ok f c fi l) :
    l.Nodup ∧ ∀ a ∈ l, geo.rootCluster + 1 ≤ a ∧ a < geo.usableClusters := by
  induction k generalizing fat current first f c fi l with
  | zero =>
    rw [allocClusters] at h
    cases h
    simp
  | succ k ih =>
    rw [allocClusters] at h
    simp only [] at h
    split at h
    · cases h
    · rename_i free hfind
      split at h
      · rename_i f' c' fi' l' hrec
        cases h
        obtain ⟨hfree0, hge, hlt, -⟩ := findFreeCluster_some hfind
        obtain ⟨hnd, hrange⟩ := ih hrec
        have hfree2 : fatWrite (if current = 0 then fat else fatWrite fat current free)
            free FAT_EOF free ≠ 0 := by
          simp [fatWrite, FAT_EOF]
        refine ⟨List.nodup_cons.mpr ⟨allocClusters_avoid hrec hfree2, hnd⟩, ?_⟩
        intro a ha
        rcases List.mem_cons.mp ha with rfl | ha
        · exact ⟨hge, hlt⟩
        · exact hrange a ha
      · cases h

/-! ### Example fixtures used by witnesses and counterexamples -/

/-- A small example geometry: root cluster 2, 8 usable clusters. -/
def exGeo : Geo := ⟨2, 8⟩

/-- A FAT in which every cluster is free. -/
def exFatFree : Fat := fun _ => 0

/-- Zero wall-clock timestamps. -/
def exTime : TimeInfo := ⟨0, 0, 0, 0, 0, 0⟩

/-- A never-used directory slot (byte 0 of the name is 0). -/
def exFreeSlot : DirEntry :=
  { name := [0], attr := 0, starthi := 0, start := 0, size := 0,
    ctimeCs := 0, ctime := 0, cdate := 0, adate := 0, time := 0, date := 0 }

/-! ### Claim C5 -/

/-- C5 (amended): the derived usable cluster count equals
`min((total − reserved − num_fats × fat_length) / sectors_per_cluster,
fat_length × 512 / 4 − 8, 2^28)` — the code uses the compile-time constant
512 and subtracts two FAT-entry sizes (8), not 2 — and the free-cluster
search scans linearly from `root_first_cluster + 1` up to but excluding
`usable_clusters`, returning the first FAT entry equal to 0. -/
theorem usable_clusters_formula_and_free_scan :
    (∀ b : BootParams,
      usableClustersSize b =
        min (min ((b.totalSectors - b.reservedSectors - b.fatLength * b.numFats) /
            b.sectorsPerCluster) (b.fatLength * 512 / 4 - 8)) (2 ^ 28)) ∧
    ∀ (geo : Geo) (fat : Fat),
      (∀ c, findFreeCluster geo fat = some c →
        fat c = 0 ∧ geo.rootCluster + 1 ≤ c ∧ c < geo.usableClusters ∧
          ∀ x, geo.rootCluster + 1 ≤ x → x < c → fat x ≠ 0) ∧
      (findFreeCluster geo fat = none →
        ∀ x, geo.rootCluster + 1 ≤ x → x < geo.usableClusters → fat x ≠ 0) := by
  refine ⟨fun b => ?_, fun geo fat =>
    ⟨fun c h => findFreeCluster_some h, fun h => findFreeCluster_none h⟩⟩
  have key : ∀ u0 uf M : Nat,
      (if uf ≤ (if u0 > M then M else u0) then uf else (if u0 > M then M else u0)) =
        min (min u0 uf) M := by
    intro u0 uf M
    split_ifs <;> omega
  have h28 : MAX_CLUSTERS = 2 ^ 28 := by decide
  have h8 : (2 : Nat) * 4 = 8 := by decide
  have h512 : SECTORSIZE = 512 := rfl
  simp only [usableClustersSize, h28, h8, h512]
  exact key _ _ _

/-- C5 counterexample: with total 100000, 32 reserved sectors, one FAT of 1
sector and 2 sectors per cluster the code computes 120 usable clusters while
the claimed formula `fat_length × sector_size / 4 − 2` gives 126; and with
usable_clusters = 5 and only cluster 5 free the scan returns nothing, so
the scan excludes `usable_clusters` itself. -/
theorem usable_clusters_spec_counterexample :
    usableClustersSize ⟨100000, 32, 1, 1, 2⟩ ≠
      min (min ((100000 - 32 - 1 * 1) / 2) (1 * 512 / 4 - 2)) (2 ^ 28) ∧
    findFreeCluster ⟨2, 5⟩ (fun j => if j = 5 then 0 else 1) = none ∧
    (fun j : Nat => if j = 5 then 0 else 1) 5 = 0 := by
  refine ⟨by decide, by decide, by decide⟩

/-- C5 witness: the amended formula evaluated on the example geometry, and
the scan characterization applied to a concrete FAT whose first free
cluster is 4. -/
theorem usable_clusters_free_scan_witness :
    usableClustersSize ⟨100000, 32, 1, 1, 2⟩ =
      min (min ((100000 - 32 - 1 * 1) / 2) (1 * 512 / 4 - 8)) (2 ^ 28) ∧
    (fun j : Nat => if j = 4 then 0 else 1) 4 = 0 ∧ (2 : Nat) + 1 ≤ 4 := by
  have h1 := usable_clusters_formula_and_free_scan.1 ⟨100000, 32, 1, 1, 2⟩
  have h2 := (usable_clusters_formula_and_free_scan.2 ⟨2, 8⟩
    (fun j => if j = 4 then 0 else 1)).1 4 (by decide)
  exact ⟨h1, h2.1, h2.2.1⟩

/-! ### Claim C2 -/

theorem writeBytesToFile_err_cases (geo : Geo) (fat : Fat) (size first off len : Nat) :
    (writeBytesToFile geo fat size first off len).err = none ∨
    (writeBytesToFile geo fat size first off len).err = some WErr.noSpace ∨
    ((writeBytesToFile geo fat size first off len).err = some WErr.invalidOffset ∧
      size < off) := by
  unfold writeBytesToFile
  split
  · right
    right
    exact ⟨rfl, by assumption⟩
  · cases h : allocStep geo fat size first off len with
    | fail f =>
      right
      left
      rfl
    | ok fat2 c first2 alloc =>
      left
      rfl

/-- C2: for an existing file, write_bytes_to_file fails with InvalidOffset
exactly when the offset exceeds the current size, and on that failure the
FAT, the entry's size and its first cluster are unchanged. -/
theorem write_invalid_offset_iff (geo : Geo) (fat : Fat) (size first off len : Nat) :
    ((writeBytesToFile geo fat size first off len).err = some WErr.invalidOffset ↔
      size < off) ∧
    (size < off →
      (writeBytesToFile geo fat size first off len).fat = fat ∧
      (writeBytesToFile geo fat size first off len).size = size ∧
      (writeBytesToFile geo fat size first off len).first = first) := by
  constructor
  · constructor
    · intro hc
      rcases writeBytesToFile_err_cases geo fat size first off len with h | h | h
      · rw [hc] at h; cases h
      · rw [hc] at h; cases h
      · exact h.2
    · intro hlt
      simp [writeBytesToFile, if_pos hlt]
  · intro hlt
    simp [writeBytesToFile, if_pos hlt]

/-- C2 witness: writing at offset 7 into a file of size 5 fails with
InvalidOffset and leaves the size at 5. -/
theorem write_invalid_offset_witness :
    (writeBytesToFile exGeo exFatFree 5 0 7 1).err = some WErr.invalidOffset ∧
    (writeBytesToFile exGeo exFatFree 5 0 7 1).size = 5 := by
  have h := write_invalid_offset_iff exGeo exFatFree 5 0 7 1
  exact ⟨h.1.mpr (by omega), (h.2 (by omega)).2.1⟩

/-! ### Claim C10 -/

/-- C10: the clusters allocated by a single write are pairwise distinct and
each lies in `[root_first_cluster + 1, usable_clusters)`. -/
theorem write_allocated_distinct (geo : Geo) (fat : Fat) (size first off len : Nat) :
    (writeBytesToFile geo fat size first off len).allocated.Nodup ∧
    ∀ a ∈ (writeBytesToFile geo fat size first off len).allocated,
      geo.rootCluster + 1 ≤ a ∧ a < geo.usableClusters := by
  unfold writeBytesToFile
  split
  · simp
  · cases h : allocStep geo fat size first off len with
    | fail f =>
      simp
    | ok fat2 c first2 alloc =>
      unfold allocStep at h
      split at h
      · simpa using allocClusters_nodup_range h
      · cases h
        simp

/-! ### Claim C4 -/

/-- C4: for a valid name, create_file_entry fails with AlreadyExists exactly
when a live entry with that name exists, fails with DirectoryFull exactly
when no live entry matches and no slot has byte 0 in {0x00, 0xE5}, and
otherwise persists a fresh entry with attribute 0x20, first cluster 0 and
size 0 into a free slot, leaving the FAT untouched. -/
theorem create_file_entry_spec (fat : Fat) (dir : List DirEntry) (input : List Nat)
    (t : TimeInfo) (hvalid : checkFileName input = true) :
    (createFileEntry fat dir input t = .alreadyExists fat ↔
      ∃ e ∈ dir, matchesInput input e = true) ∧
    (createFileEntry fat dir input t = .directoryFull fat ↔
      (∀ e ∈ dir, matchesInput input e = false) ∧
        ∀ e ∈ dir, name0 e ≠ 0 ∧ name0 e ≠ 0xE5) ∧
    ∀ f d, createFileEntry fat dir input t = .created f d →
      f = fat ∧ ∃ i, i < dir.length ∧
        (name0 (dir.getD i default) = 0 ∨ name0 (dir.getD i default) = 0xE5) ∧
        d = dir.set i (freshEntry input t) ∧
        (freshEntry input t).attr = 0x20 ∧ firstClusterOf (freshEntry input t) = 0 ∧
        (freshEntry input t).size = 0 := by
  rcases hfind : findEntryIdx dir input with _ | i
  · have hmatches := findFirstIdx_eq_none.mp hfind
    rcases hfree : findFreeIdx dir with _ | i
    · have hnofree := findFirstIdx_eq_none.mp hfree
      have hres : createFileEntry fat dir input t = .directoryFull fat := by
        unfold createFileEntry
        rw [hfind, hfree]
      refine ⟨?_, ?_, ?_⟩
      · rw [hres]
        simp only [reduceCtorEq, false_iff, not_exists]
        rintro e ⟨he, hm⟩
        rw [hmatches e he] at hm
        cases hm
      · rw [hres]
        simp only [true_iff]
        refine ⟨hmatches, fun e he => ?_⟩
        have h := hnofree e he
        simp only [Bool.or_eq_false_iff, beq_eq_false_iff_ne, ne_eq] at h
        exact h
      · intro f d hd
        rw [hres] at hd
        cases hd
    · obtain ⟨hilen, hip, -⟩ := findFirstIdx_eq_some hfree
      have hres : createFileEntry fat dir input t =
          .created fat (dir.set i (freshEntry input t)) := by
        unfold createFileEntry
        rw [hfind, hfree]
      have hifree : name0 (dir.getD i default) = 0 ∨ name0 (dir.getD i default) = 0xE5 := by
        simpa using hip
      refine ⟨?_, ?_, ?_⟩
      · rw [hres]
        simp only [reduceCtorEq, false_iff, not_exists]
        rintro e ⟨he, hm⟩
        rw [hmatches e he] at hm
        cases hm
      · rw [hres]
        simp only [reduceCtorEq, false_iff, not_and]
        intro hm hall
        have h := hall (dir.getD i default)
          (by rw [List.getD_eq_getElem _ _ hilen]; exact List.getElem_mem hilen)
        rcases hifree with h0 | h0 <;> [exact h.1 h0; exact h.2 h0]
      · intro f d hd
        rw [hres] at hd
        injection hd with hf hdir
        subst hf
        subst hdir
        exact ⟨rfl, i, hilen, hifree, rfl, rfl, by simp [firstClusterOf, freshEntry], rfl⟩
  · obtain ⟨hilen, hip, -⟩ := findFirstIdx_eq_some hfind
    have hres : createFileEntry fat dir input t = .alreadyExists fat := by
      unfold createFileEntry
      rw [hfind]
    refine ⟨?_, ?_, ?_⟩
    · rw [hres]
      simp only [true_iff]
      exact ⟨dir.getD i default,
        by rw [List.getD_eq_getElem _ _ hilen]; exact List.getElem_mem hilen, hip⟩
    · rw [hres]
      simp only [reduceCtorEq, false_iff, not_and]
      intro hm
      have := hm (dir.getD i default)
        (by rw [List.getD_eq_getElem _ _ hilen]; exact List.getElem_mem hilen)
      rw [hip] at this
      cases this
    · intro f d hd
      rw [hres] at hd
      cases hd

/-- C4 witness: creating A.B in a directory with one never-used slot
produces a fresh entry with attribute 0x20, first cluster 0 and size 0. -/
theorem create_file_entry_witness :
    (freshEntry [65, 46, 66] exTime).attr = 0x20 ∧
    firstClusterOf (freshEntry [65, 46, 66] exTime) = 0 ∧
    (freshEntry [65, 46, 66] exTime).size = 0 := by
  have h := create_file_entry_spec exFatFree [exFreeSlot] [65, 46, 66] exTime (by decide)
  obtain ⟨-, i, -, -, -, hattr, hfirst, hsize⟩ := h.2.2 _ _ rfl
  exact ⟨hattr, hfirst, hsize⟩

/-! ### Chain lemmas for delete -/

theorem chainLinks_congr {f g : Fat} {cs : List Nat} (h : ∀ y ∈ cs, f y = g y) :
    chainLinks f cs → chainLinks g cs := by
  induction cs with
  | nil => intro _; trivial
  | cons c rest ih =>
    rcases rest with _ | ⟨c', t⟩
    · intro hl
      show FAT_EOF ≤ g c
      rw [← h c (by simp)]
      exact hl
    · rintro ⟨h1, h2⟩
      exact ⟨(h c (by simp)) ▸ h1, ih (fun y hy => h y (by simp [hy])) h2⟩

theorem chain_entries_ne_zero {fat : Fat} {cs : List Nat}
    (hlinks : chainLinks fat cs) (hbounds : ∀ c ∈ cs, 2 ≤ c) :
    ∀ c ∈ cs, fat c ≠ 0 := by
  induction cs with
  | nil => simp
  | cons c rest ih =>
    rcases rest with _ | ⟨c', t⟩
    · intro x hx
      simp only [List.mem_singleton] at hx
      subst hx
      have : FAT_EOF ≤ fat x := hlinks
      have hEOF : FAT_EOF = 0x0FFFFFF8 := rfl
      omega
    · rintro x hx
      rcases List.mem_cons.mp hx with rfl | hx'
      · have h1 : fat x = c' := hlinks.1
        have h2 : 2 ≤ c' := hbounds c' (by simp)
        omega
      · exact ih hlinks.2 (fun y hy => hbounds y (by simp [hy])) x hx'

/-- The delete loop frees exactly a well-formed chain: given fuel at least
the chain length plus one, it terminates, writes 0 to every chain cluster
and leaves every other FAT entry untouched. -/
theorem delete_chain {fat : Fat} {cs : List Nat} {first : Nat}
    (hlinks : chainLinks fat cs) (hnd : cs.Nodup)
    (hbounds : ∀ c ∈ cs, 1 < c ∧ c < FAT_EOF)
    (hhead : cs.headD 0 = first) :
    ∀ fuel, cs.length + 1 ≤ fuel →
      ∃ fat', deleteLoop fat fuel first (fat first) = some fat' ∧
        (∀ c ∈ cs, fat' c = 0) ∧ ∀ x, x ∉ cs → fat' x = fat x := by
  induction cs generalizing fat first with
  | nil =>
    intro fuel hfuel
    obtain ⟨f, rfl⟩ : ∃ f, fuel = f + 1 := ⟨fuel - 1, by omega⟩
    simp only [List.headD_nil] at hhead
    subst hhead
    refine ⟨fat, ?_, by simp, fun x _ => rfl⟩
    rw [deleteLoop, if_neg (by omega)]
  | cons c rest ih =>
    intro fuel hfuel
    obtain ⟨f, rfl⟩ : ∃ f, fuel = f + 1 := ⟨fuel - 1, by omega⟩
    simp only [List.headD_cons] at hhead
    subst hhead
    have hcb := hbounds c (by simp)
    rw [deleteLoop, if_pos ⟨hcb.2, hcb.1⟩]
    rcases rest with _ | ⟨c', t⟩
    · have hterm : FAT_EOF ≤ fat c := hlinks
      obtain ⟨f2, rfl⟩ : ∃ f2, f = f2 + 1 := ⟨f - 1, by simp at hfuel; omega⟩
      refine ⟨fatWrite fat c 0, ?_, ?_, ?_⟩
      · rw [deleteLoop, if_neg (by omega)]
      · intro x hx
        simp only [List.mem_singleton] at hx
        subst hx
        simp [fatWrite]
      · intro x hx
        simp only [List.mem_singleton] at hx
        simp [fatWrite, hx]
    · have hlink : fat c = c' := hlinks.1
      have hcnot : c ∉ c' :: t := (List.nodup_cons.mp hnd).1
      have hlinks1 : chainLinks (fatWrite fat c 0) (c' :: t) := by
        apply chainLinks_congr ?_ hlinks.2
        intro y hy
        have hyne : y ≠ c := fun hyc => hcnot (hyc ▸ hy)
        simp [fatWrite, hyne]
      obtain ⟨fat', hloop, hzero, hout⟩ :=
        ih hlinks1 (List.nodup_cons.mp hnd).2
          (fun x hx => hbounds x (by simp [hx])) rfl f
          (by simp only [List.length_cons] at hfuel ⊢; omega)
      rw [hlink]
      refine ⟨fat', hloop, ?_, ?_⟩
      · intro x hx
        rcases List.mem_cons.mp hx with rfl | hx'
        · rw [hout x hcnot]
          simp [fatWrite]
        · exact hzero x hx'
      · intro x hx
        have hxc : x ≠ c := fun h => hx (h ▸ List.mem_cons_self _ _)
        have hxrest : x ∉ c' :: t := fun h => hx (List.mem_cons_of_mem _ h)
        rw [hout x hxrest]
        simp [fatWrite, hxc]

/-! ### Claim C3 -/

/-- The final FAT of a completed delete, read at cluster `c`
(1 when the delete did not complete, for use in concrete witnesses). -/
def DeleteOut.fatEntry : DeleteOut → Nat → Nat
  | .ok f _, c => f c
  | _, _ => 1

/-- C3: deleting a live file with a well-formed chain frees every cluster
reachable from its first cluster, leaves all other FAT entries untouched,
tombstones the slot (byte 0 becomes 0xE5), and when the first cluster is 0
modifies no FAT entry at all. -/
theorem delete_file_reclaims (geo : Geo) (fuel : Nat) (fat : Fat) (dir : List DirEntry)
    (input : List Nat) (i : Nat) (cs : List Nat)
    (hfind : findEntryIdx dir input = some i)
    (hwf : WFChain geo fat (firstClusterOf (dir.getD i default)) cs)
    (hfuel : cs.length + 1 ≤ fuel) :
    ∃ fat', deleteFile fuel fat dir input =
        .ok fat' (dir.set i (tombstone (dir.getD i default))) ∧
      (∀ c ∈ cs, fat' c = 0) ∧ (∀ x, x ∉ cs → fat' x = fat x) ∧
      name0 (tombstone (dir.getD i default)) = 0xE5 ∧
      (firstClusterOf (dir.getD i default) = 0 → fat' = fat) := by
  obtain ⟨fat', hloop, hzero, hout⟩ :=
    delete_chain hwf.links hwf.nodup
      (fun c hc => ⟨by have := (hwf.bounds c hc).1; omega, (hwf.bounds c hc).2.2⟩)
      hwf.head_eq fuel hfuel
  refine ⟨fat', ?_, hzero, hout, rfl, ?_⟩
  · unfold deleteFile
    rw [hfind]
    simp only []
    rw [hloop]
  · intro h0
    have hcs : cs = [] := by
      cases cs with
      | nil => rfl
      | cons a t =>
        have hb := (hwf.bounds a (by simp)).1
        have hh := hwf.head_eq
        simp only [List.headD_cons] at hh
        omega
    subst hcs
    funext x
    exact hout x (by simp)

/-- A FAT holding the two-cluster chain 3 → 4 → end-of-chain. -/
def exFatChain : Fat := fun c => if c = 3 then 4 else if c = 4 then FAT_EOF else 0

/-- A live directory entry named A.B with first cluster 3 and size 2000. -/
def exEntryAB : DirEntry :=
  { name := [65, 32, 32, 32, 32, 32, 32, 32, 66, 0, 0], attr := 0x20,
    starthi := 0, start := 3, size := 2000,
    ctimeCs := 0, ctime := 0, cdate := 0, adate := 0, time := 0, date := 0 }

theorem exFatChain_links : chainLinks exFatChain [3, 4] := by
  show exFatChain 3 = 4 ∧ chainLinks exFatChain [4]
  exact ⟨by decide, show FAT_EOF ≤ exFatChain 4 by decide⟩

/-- C3 witness: deleting A.B with chain 3 → 4 completes and zeroes the FAT
entries of clusters 3 and 4. -/
theorem delete_file_witness :
    (deleteFile 10 exFatChain [exEntryAB] [65, 46, 66]).isOk = true ∧
    (deleteFile 10 exFatChain [exEntryAB] [65, 46, 66]).fatEntry 3 = 0 ∧
    (deleteFile 10 exFatChain [exEntryAB] [65, 46, 66]).fatEntry 4 = 0 := by
  have hwf : WFChain exGeo exFatChain (firstClusterOf ([exEntryAB].getD 0 default)) [3, 4] :=
    ⟨by decide, exFatChain_links, by decide, by decide⟩
  obtain ⟨fat', hok, hzero, hout, hname, h0⟩ :=
    delete_file_reclaims exGeo 10 exFatChain [exEntryAB] [65, 46, 66] 0 [3, 4]
      (by decide) hwf (by decide)
  rw [hok]
  exact ⟨rfl, hzero 3 (by simp), hzero 4 (by simp)⟩

/-! ### Claim C6 -/

/-- C6 (amended): the delete walk treats any current cluster outside
(1, end-of-chain) as a terminator and stops silently — the code defines no
BadChain error — and for a well-formed chain the walk terminates within
chain length + 1 iterations, the chain length being at most
usable_clusters. -/
theorem chain_walk_terminates_silently :
    (∀ (fat : Fat) (current next fuel : Nat), 1 ≤ fuel →
      current < 2 ∨ FAT_EOF ≤ current →
      deleteLoop fat fuel current next = some fat) ∧
    ∀ (geo : Geo) (fat : Fat) (first : Nat) (cs : List Nat),
      WFChain geo fat first cs →
      cs.length ≤ geo.usableClusters ∧
      ∀ fuel, cs.length + 1 ≤ fuel →
        ∃ fat', deleteLoop fat fuel first (fat first) = some fat' := by
  constructor
  · intro fat current next fuel hfuel hcur
    obtain ⟨f, rfl⟩ : ∃ f, fuel = f + 1 := ⟨fuel - 1, by omega⟩
    have hEOF : FAT_EOF = 0x0FFFFFF8 := rfl
    have hcond : ¬(current < FAT_EOF ∧ 1 < current) := by omega
    rw [deleteLoop, if_neg hcond]
  · intro geo fat first cs hwf
    constructor
    · have h1 : cs.toFinset.card = cs.length := List.toFinset_card_of_nodup hwf.nodup
      have h2 : cs.toFinset ⊆ Finset.Icc 2 (geo.usableClusters + 1) := by
        intro c hc
        have hb := hwf.bounds c (List.mem_toFinset.mp hc)
        exact Finset.mem_Icc.mpr ⟨hb.1, hb.2.1⟩
      have h3 := Finset.card_le_card h2
      rw [h1, Nat.card_Icc] at h3
      omega
    · intro fuel hfuel
      obtain ⟨fat', hloop, -, -⟩ :=
        delete_chain hwf.links hwf.nodup
          (fun c hc => ⟨by have := (hwf.bounds c hc).1; omega, (hwf.bounds c hc).2.2⟩)
          hwf.head_eq fuel hfuel
      exact ⟨fat', hloop⟩

/-- A FAT in which the chain starting at cluster 5 points to cluster 1,
which is outside the valid cluster range. -/
def exFatBad : Fat := fun c => if c = 5 then 1 else 0

/-- A live entry named A.B whose first cluster is 5. -/
def exEntryBad : DirEntry := { exEntryAB with start := 5 }

/-- C6 counterexample: a chain entry points to cluster 1 (< 2), yet delete
completes without reporting any error — the code has no BadChain failure. -/
theorem bad_chain_no_error_counterexample :
    exFatBad 5 = 1 ∧ (deleteFile 12 exFatBad [exEntryBad] [65, 46, 66]).isOk = true := by
  exact ⟨by decide, by decide⟩

/-- C6 witness: a walk starting at cluster 1 stops at once, and the example
two-cluster chain is no longer than the usable-cluster count. -/
theorem chain_walk_witness :
    deleteLoop exFatFree 1 1 0 = some exFatFree ∧
    [3, 4].length ≤ exGeo.usableClusters := by
  constructor
  · exact chain_walk_terminates_silently.1 exFatFree 1 0 1 (by omega) (Or.inl (by omega))
  · exact (chain_walk_terminates_silently.2 exGeo exFatChain 3 [3, 4]
      ⟨by decide, exFatChain_links, by decide, by decide⟩).1

/-! ### Name-codec lemmas -/

theorem isNameChar_facts {c : Nat} (h : isNameChar c = true) :
    c ≠ 0 ∧ c ≠ 32 ∧ c ≠ 46 := by
  unfold isNameChar isalnumB at h
  simp only [Bool.or_eq_true, Bool.and_eq_true, decide_eq_true_eq, beq_iff_eq] at h
  omega

theorem encLoop1_copy (base : List Nat) (rest : List Nat) (k : Nat)
    (hlen : base.length ≤ k) (hbase : ∀ c ∈ base, c ≠ 46) :
    encLoop1 k false (base ++ rest) =
      (base ++ (encLoop1 (k - base.length) false rest).1,
        (encLoop1 (k - base.length) false rest).2) := by
  induction base generalizing k with
  | nil => simp
  | cons c bt ih =>
    obtain ⟨k', rfl⟩ : ∃ k', k = k' + 1 := ⟨k - 1, by simp at hlen; omega⟩
    have hc : c ≠ 46 := hbase c (by simp)
    rw [encLoop1]
    simp only [List.cons_append, List.headD_cons, List.tail_cons, hc, if_false,
      Bool.false_eq_true]
    rw [ih k' (by simp at hlen; omega) (fun x hx => hbase x (by simp [hx]))]
    simp

theorem encLoop1_dotmode (k : Nat) (s : List Nat) (h : s.headD 0 ≠ 46) :
    encLoop1 k true s = (List.replicate k 32, s) := by
  induction k with
  | zero => simp [encLoop1]
  | succ k ih =>
    rw [encLoop1]
    simp only [h, if_false, if_true]
    rw [ih]
    simp [List.replicate_succ]

theorem encLoop1_hit_dot (k : Nat) (rest : List Nat) (h : rest.headD 0 ≠ 46) :
    encLoop1 (k + 1) false (46 :: rest) = (List.replicate (k + 1) 32, rest) := by
  rw [encLoop1]
  simp only [List.headD_cons, List.tail_cons, if_pos rfl, if_true]
  rw [encLoop1_dotmode k rest h]
  simp [List.replicate_succ]

theorem encLoop1_empty (k : Nat) : encLoop1 k false [] = (List.replicate k 0, []) := by
  induction k with
  | zero => simp [encLoop1]
  | succ k ih =>
    rw [encLoop1]
    simp [ih, List.replicate_succ]

theorem encLoop2_copy (ext : List Nat) (k : Nat)
    (hlen : ext.length ≤ k) (hext : ∀ c ∈ ext, c ≠ 0) :
    encLoop2 k ext = ext := by
  induction ext generalizing k with
  | nil =>
    cases k <;> simp [encLoop2]
  | cons c et ih =>
    obtain ⟨k', rfl⟩ : ∃ k', k = k' + 1 := ⟨k - 1, by simp at hlen; omega⟩
    rw [encLoop2]
    simp only [List.headD_cons, List.tail_cons]
    rw [if_neg (hext c (by simp))]
    rw [ih k' (by simp at hlen; omega) (fun x hx => hext x (by simp [hx]))]

/-- Characterization of the source encoding when the input has a dot and
the name part is at most 7 bytes: the name field is the name part padded
with spaces, the extension field is the extension padded with zero bytes. -/
theorem encodeName_dotted (base ext : List Nat)
    (hbase : ∀ c ∈ base, c ≠ 46) (hblen : base.length ≤ 7)
    (hext0 : ∀ c ∈ ext, c ≠ 0) (hexthead : ext.headD 0 ≠ 46) (hextlen : ext.length ≤ 3) :
    encodeName (base ++ 46 :: ext) =
      base ++ List.replicate (8 - base.length) 32 ++ ext ++
        List.replicate (3 - ext.length) 0 := by
  unfold encodeName
  rw [encLoop1_copy base (46 :: ext) 8 (by omega) hbase]
  obtain ⟨m, hm⟩ : ∃ m, 8 - base.length = m + 1 := ⟨8 - base.length - 1, by omega⟩
  rw [hm, encLoop1_hit_dot m ext hexthead]
  simp only []
  rw [encLoop2_copy ext 3 hextlen hext0]

/-- Characterization of the source encoding when the input has no dot and
at most 8 bytes: the name field is padded with zero bytes (left over from
the zero-filled input buffer) and the extension field is all zero. -/
theorem encodeName_undotted (base : List Nat)
    (hbase : ∀ c ∈ base, c ≠ 46) (hblen : base.length ≤ 8) :
    encodeName base = base ++ List.replicate (8 - base.length) 0 ++ [0, 0, 0] := by
  unfold encodeName
  have h := encLoop1_copy base [] 8 hblen hbase
  rw [List.append_nil] at h
  rw [h, encLoop1_empty]
  simp only []
  have h2 : encLoop2 3 [] = [] := rfl
  rw [h2]
  simp [List.append_assoc]

theorem takeWhile_append_all {p : Nat → Bool} {A B : List Nat}
    (h : ∀ c ∈ A, p c = true) :
    (A ++ B).takeWhile p = A ++ B.takeWhile p := by
  induction A with
  | nil => simp
  | cons a t ih =>
    rw [List.cons_append, List.takeWhile_cons, if_pos (h a (by simp))]
    rw [ih (fun c hc => h c (by simp [hc]))]
    simp

theorem takeWhile_replicate_not {p : Nat → Bool} {x : Nat} (h : p x = false) (k : Nat) :
    (List.replicate k x).takeWhile p = [] := by
  cases k with
  | zero => simp
  | succ k =>
    rw [List.replicate_succ, List.takeWhile_cons, if_neg (by simp [h])]

/-- Decoding the dotted encoded form recovers the name. -/
theorem decodeName_padded_dotted (base ext : List Nat)
    (hbc : ∀ c ∈ base, isNameChar c = true) (hec : ∀ c ∈ ext, isNameChar c = true)
    (hb : base.length ≤ 8) (he : ext.length ≤ 3) (hene : ext ≠ []) :
    decodeName (base ++ List.replicate (8 - base.length) 32 ++ ext ++
        List.replicate (3 - ext.length) 0) =
      base ++ 46 :: ext := by
  unfold decodeName
  simp only []
  have hlen1 : (base ++ List.replicate (8 - base.length) 32).length = 8 := by
    simp
    omega
  rw [List.append_assoc (base ++ List.replicate (8 - base.length) 32)]
  rw [List.take_left' hlen1, List.drop_left' hlen1]
  have hlen2 : (ext ++ List.replicate (3 - ext.length) 0).length = 3 := by
    simp
    omega
  rw [List.take_of_length_le (le_of_eq hlen2)]
  rw [takeWhile_append_all hbc, takeWhile_replicate_not (by decide) _]
  rw [takeWhile_append_all hec, takeWhile_replicate_not (by decide) _]
  simp only [List.append_nil]
  rw [if_neg hene]

/-- Decoding the undotted encoded form recovers the name. -/
theorem decodeName_padded_undotted (base : List Nat)
    (hbc : ∀ c ∈ base, isNameChar c = true) (hb : base.length ≤ 8) :
    decodeName (base ++ List.replicate (8 - base.length) 0 ++ [0, 0, 0]) = base := by
  unfold decodeName
  simp only []
  have hlen1 : (base ++ List.replicate (8 - base.length) 0).length = 8 := by
    simp
    omega
  rw [List.take_left' hlen1, List.drop_left' hlen1]
  rw [takeWhile_append_all hbc, takeWhile_replicate_not (by decide) _]
  have : ([0, 0, 0] : List Nat).take 3 = [0, 0, 0] := rfl
  rw [this]
  have h0 : ([0, 0, 0] : List Nat).takeWhile isNameChar = [] := rfl
  rw [h0]
  simp

/-! ### Claim C7 -/

/-- C7 (amended): for a valid 8.3 input whose name part has at most 7
characters when an extension is present, the encoded short name is the name
part left-justified in 8 bytes padded with ' ' followed by the extension
left-justified with its unused bytes left 0x00 (not ' '); for an input with
no dot, the name field's unused bytes are 0x00 as well and the extension
field is all 0x00. -/
theorem encode_name_characterization (base ext base2 : List Nat)
    (hbc : ∀ c ∈ base, isNameChar c = true) (hec : ∀ c ∈ ext, isNameChar c = true)
    (hb1 : 1 ≤ base.length) (hb7 : base.length ≤ 7)
    (he1 : 1 ≤ ext.length) (he3 : ext.length ≤ 3)
    (hb2c : ∀ c ∈ base2, isNameChar c = true) (hb2len : base2.length ≤ 8) :
    encodeName (base ++ 46 :: ext) =
      base ++ List.replicate (8 - base.length) 32 ++ ext ++
        List.replicate (3 - ext.length) 0 ∧
    encodeName base2 = base2 ++ List.replicate (8 - base2.length) 0 ++ [0, 0, 0] := by
  constructor
  · apply encodeName_dotted
    · exact fun c hc => (isNameChar_facts (hbc c hc)).2.2
    · exact hb7
    · exact fun c hc => (isNameChar_facts (hec c hc)).1
    · cases ext with
      | nil => simp at he1
      | cons e et =>
        simp only [List.headD_cons]
        exact (isNameChar_facts (hec e (by simp))).2.2
    · exact he3
  · exact encodeName_undotted base2
      (fun c hc => (isNameChar_facts (hb2c c hc)).2.2) hb2len

/-- C7 counterexample: both A.B and AB are valid 8.3 names accepted by the
validator, yet the code's encoding differs from the specification's
space-padded encoding (the unused extension bytes of A.B and the unused
name bytes of AB are 0x00, not ' '). -/
theorem encode_name_padding_counterexample :
    checkFileName [65, 46, 66] = true ∧ is83Shape [65, 46, 66] = true ∧
    encodeName [65, 46, 66] ≠ encodeNameSpec [65, 46, 66] ∧
    checkFileName [65, 66] = true ∧ is83Shape [65, 66] = true ∧
    encodeName [65, 66] ≠ encodeNameSpec [65, 66] := by
  exact ⟨by decide, by decide, by decide, by decide, by decide, by decide⟩

/-- C7 witness: the characterization applied to A.B and AB. -/
theorem encode_name_witness :
    encodeName ([65] ++ 46 :: [66]) =
      [65] ++ List.replicate (8 - [65].length) 32 ++ [66] ++
        List.replicate (3 - [66].length) 0 ∧
    encodeName [65, 66] = [65, 66] ++ List.replicate (8 - [65, 66].length) 0 ++ [0, 0, 0] :=
  encode_name_characterization [65] [66] [65, 66] (by decide) (by decide) (by decide)
    (by decide) (by decide) (by decide) (by decide) (by decide)

/-! ### Claim C8 -/

/-- C8 (amended): for a valid 8.3 input accepted by the validator whose
name part has at most 7 characters when an extension is present (at most 8
with no extension), decoding the encoded uppercased name yields the
uppercased input: decode(encode(uppercase(name))) = uppercase(name). -/
theorem decode_encode_roundtrip (base ext base2 : List Nat)
    (hbc : ∀ c ∈ base, isNameChar (upperByte c) = true)
    (hec : ∀ c ∈ ext, isNameChar (upperByte c) = true)
    (hb1 : 1 ≤ base.length) (hb7 : base.length ≤ 7)
    (he1 : 1 ≤ ext.length) (he3 : ext.length ≤ 3)
    (hvalid : checkFileName (base ++ 46 :: ext) = true)
    (hb2c : ∀ c ∈ base2, isNameChar (upperByte c) = true)
    (hb2len : base2.length ≤ 8)
    (hvalid2 : checkFileName base2 = true) :
    decodeName (encodeName (upperName (base ++ 46 :: ext))) =
      upperName (base ++ 46 :: ext) ∧
    decodeName (encodeName (upperName base2)) = upperName base2 := by
  have hu46 : upperByte 46 = 46 := by decide
  have hsplit : upperName (base ++ 46 :: ext) =
      upperName base ++ 46 :: upperName ext := by
    simp [upperName, hu46]
  have hbc' : ∀ c ∈ upperName base, isNameChar c = true := by
    intro c hc
    obtain ⟨a, ha, rfl⟩ := List.mem_map.mp hc
    exact hbc a ha
  have hec' : ∀ c ∈ upperName ext, isNameChar c = true := by
    intro c hc
    obtain ⟨a, ha, rfl⟩ := List.mem_map.mp hc
    exact hec a ha
  have hb2c' : ∀ c ∈ upperName base2, isNameChar c = true := by
    intro c hc
    obtain ⟨a, ha, rfl⟩ := List.mem_map.mp hc
    exact hb2c a ha
  have hlb : (upperName base).length = base.length := List.length_map _ _
  have hle : (upperName ext).length = ext.length := List.length_map _ _
  have hlb2 : (upperName base2).length = base2.length := List.length_map _ _
  constructor
  · rw [hsplit]
    rw [encodeName_dotted (upperName base) (upperName ext)
      (fun c hc => (isNameChar_facts (hbc' c hc)).2.2) (by omega)
      (fun c hc => (isNameChar_facts (hec' c hc)).1) ?hd (by omega)]
    case hd =>
      cases hext : upperName ext with
      | nil =>
        rw [hext] at hle
        simp at hle
        omega
      | cons e et =>
        simp only [List.headD_cons]
        exact (isNameChar_facts (hec' e (by rw [hext]; simp))).2.2
    apply decodeName_padded_dotted (upperName base) (upperName ext) hbc' hec'
      (by omega) (by omega)
    intro hne
    rw [hne] at hle
    simp at hle
    omega
  · rw [encodeName_undotted (upperName base2)
      (fun c hc => (isNameChar_facts (hb2c' c hc)).2.2) (by omega)]
    exact decodeName_padded_undotted (upperName base2) hb2c' (by omega)

/-- C8 counterexample: ABCDEFGH.XY is a valid 8.3 name (8-character name
part, 2-character extension) accepted by the validator, but the code copies
the dot and extension into the extension field only when the dot falls
within the first 8 bytes, so the round trip drops the extension. -/
theorem roundtrip_counterexample :
    checkFileName [65, 66, 67, 68, 69, 70, 71, 72, 46, 88, 89] = true ∧
    is83Shape [65, 66, 67, 68, 69, 70, 71, 72, 46, 88, 89] = true ∧
    decodeName (encodeName (upperName [65, 66, 67, 68, 69, 70, 71, 72, 46, 88, 89])) ≠
      upperName [65, 66, 67, 68, 69, 70, 71, 72, 46, 88, 89] := by
  exact ⟨by decide, by decide, by decide⟩

/-- C8 witness: the round trip holds for a.b and for ab. -/
theorem roundtrip_witness :
    decodeName (encodeName (upperName ([97] ++ 46 :: [98]))) =
      upperName ([97] ++ 46 :: [98]) ∧
    decodeName (encodeName (upperName [97, 98])) = upperName [97, 98] :=
  decode_encode_roundtrip [97] [98] [97, 98] (by decide) (by decide) (by decide)
    (by decide) (by decide) (by decide) (by decide) (by decide) (by decide) (by decide)

/-! ### Chain-extension lemmas for the write path -/

theorem getD_mem {cs : List Nat} {p : Nat} (hp : p < cs.length) : cs.getD p 0 ∈ cs := by
  rw [List.getD_eq_getElem _ _ hp]
  exact List.getElem_mem hp

theorem getLastq_mem {cs : List Nat} {a : Nat} (h : cs.getLast? = some a) : a ∈ cs := by
  induction cs with
  | nil => simp at h
  | cons c rest ih =>
    cases rest with
    | nil =>
      have : c = a := by simpa using h
      simp [this]
    | cons c' t =>
      rw [List.getLast?_cons_cons] at h
      exact List.mem_cons_of_mem _ (ih h)

theorem getLast?_eq_some_getD {cs : List Nat} (h : cs ≠ []) :
    cs.getLast? = some (cs.getD (cs.length - 1) 0) := by
  have hlen : cs.length - 1 < cs.length := by
    cases cs with
    | nil => cases h rfl
    | cons a t => simp
  rw [List.getLast?_eq_getElem?, List.getD_eq_getElem _ _ hlen]
  exact List.getElem?_eq_getElem hlen

theorem walkSteps_chain {fat : Fat} {cs : List Nat} (hl : chainLinks fat cs) :
    ∀ i, i < cs.length → walkSteps fat (cs.headD 0) i = cs.getD i 0 := by
  induction cs with
  | nil => simp
  | cons c rest ih =>
    intro i hi
    cases i with
    | zero => simp [walkSteps]
    | succ i =>
      rcases rest with _ | ⟨c', t⟩
      · simp at hi
      · rw [List.headD_cons, walkSteps, hl.1]
        have := ih hl.2 i (by simpa using hi)
        rw [List.headD_cons] at this
        rw [this, List.getD_cons_succ]

theorem chainLinks_next {fat : Fat} {cs : List Nat} (hl : chainLinks fat cs) :
    ∀ p, p + 1 < cs.length → fat (cs.getD p 0) = cs.getD (p + 1) 0 := by
  induction cs with
  | nil => simp
  | cons c rest ih =>
    intro p hp
    cases rest with
    | nil => simp at hp
    | cons c' t =>
      cases p with
      | zero => simpa using hl.1
      | succ p =>
        simp only [List.getD_cons_succ]
        exact ih hl.2 p (by simp at hp ⊢; omega)

theorem chainLinks_getLast {fat : Fat} {cs : List Nat} (hl : chainLinks fat cs)
    {a : Nat} (h : cs.getLast? = some a) : FAT_EOF ≤ fat a := by
  induction cs with
  | nil => simp at h
  | cons c rest ih =>
    cases rest with
    | nil =>
      have hc : c = a := by simpa using h
      subst hc
      exact hl
    | cons c' t =>
      rw [List.getLast?_cons_cons] at h
      exact ih hl.2 h

theorem chainLinks_snoc {fat fat2 : Fat} {cs : List Nat} {cur d : Nat}
    (hl : chainLinks fat cs) (hnd : cs.Nodup) (hlast : cs.getLast? = some cur)
    (hagree : ∀ x ∈ cs, x ≠ cur → fat2 x = fat x)
    (hlink : fat2 cur = d) (hd : FAT_EOF ≤ fat2 d) :
    chainLinks fat2 (cs ++ [d]) := by
  induction cs with
  | nil => simp at hlast
  | cons c rest ih =>
    cases rest with
    | nil =>
      have hc : c = cur := by simpa using hlast
      subst hc
      exact ⟨hlink, hd⟩
    | cons c' t =>
      rw [List.getLast?_cons_cons] at hlast
      have hcurmem : cur ∈ c' :: t := getLastq_mem hlast
      have hcnot : c ∉ c' :: t := (List.nodup_cons.mp hnd).1
      have hcc : c ≠ cur := fun h => hcnot (h ▸ hcurmem)
      refine ⟨?_, ih hl.2 (List.nodup_cons.mp hnd).2 hlast
        (fun x hx hxc => hagree x (by simp [hx]) hxc)⟩
      rw [hagree c (by simp) hcc]
      exact hl.1

/-- A successful allocation loop extends a well-formed chain by exactly the
allocated clusters, keeps the head (installing the first allocated cluster
when the chain was empty), and finishes with the last allocated cluster as
the current cluster. -/
theorem allocExtend {geo : Geo}
    (husable : geo.usableClusters ≤ FAT_EOF) (hroot : 2 ≤ geo.rootCluster) :
    ∀ (k : Nat) (fat : Fat) (cs : List Nat) (current first : Nat) (f : Fat)
      (c' fi : Nat) (l : List Nat),
      WFChain geo fat first cs →
      ((cs = [] ∧ current = 0) ∨ cs.getLast? = some current) →
      allocClusters geo k fat current first = .ok f c' fi l →
      WFChain geo f fi (cs ++ l) ∧ l.length = k ∧
        ((cs ++ l = [] ∧ c' = 0) ∨ (cs ++ l).getLast? = some c') := by
  intro k
  induction k with
  | zero =>
    intro fat cs current first f c' fi l hwf hcur h
    rw [allocClusters] at h
    cases h
    simp only [List.append_nil]
    exact ⟨hwf, rfl, hcur⟩
  | succ k ih =>
    intro fat cs current first f c' fi l hwf hcur h
    rw [allocClusters] at h
    simp only [] at h
    split at h
    · cases h
    · rename_i free hfind
      split at h
      · rename_i f2 c2 fi2 l2 hrec
        cases h
        obtain ⟨hfree0, hge, hlt, -⟩ := findFreeCluster_some hfind
        have hfree2 : 2 ≤ free := by omega
        have hfreeEOF : free < FAT_EOF := by omega
        have hfreeU : free ≤ geo.usableClusters + 1 := by omega
        have hnzcs := chain_entries_ne_zero hwf.links (fun c hc => (hwf.bounds c hc).1)
        have hfreecs : free ∉ cs := fun hm => hnzcs free hm hfree0
        rcases hcur with ⟨rfl, rfl⟩ | hlast
        · simp only [if_pos rfl] at hrec
          have hwf1 : WFChain geo (fatWrite fat free FAT_EOF) free [free] := by
            refine ⟨by simp, ?_, by simp, ?_⟩
            · show FAT_EOF ≤ fatWrite fat free FAT_EOF free
              simp [fatWrite]
            · intro c hc
              simp only [List.mem_singleton] at hc
              subst hc
              exact ⟨hfree2, hfreeU, hfreeEOF⟩
          obtain ⟨hwfr, hlenr, hlastr⟩ :=
            ih (fatWrite fat free FAT_EOF) [free] free free _ _ _ _ hwf1
              (Or.inr (by simp)) hrec
          refine ⟨by simpa using hwfr, by simp [hlenr], by simpa using hlastr⟩
        · have hcne : cs ≠ [] := by
            intro hnil
            rw [hnil] at hlast
            simp at hlast
          have hcurmem : current ∈ cs := getLastq_mem hlast
          have hcur2 : 2 ≤ current := (hwf.bounds current hcurmem).1
          have hcur0 : current ≠ 0 := by omega
          simp only [if_neg hcur0] at hrec
          have hterm : FAT_EOF ≤ fat current := chainLinks_getLast hwf.links hlast
          have hcurfree : current ≠ free := by
            intro h
            rw [h, hfree0] at hterm
            omega
          have hagree : ∀ x ∈ cs, x ≠ current →
              fatWrite (fatWrite fat current free) free FAT_EOF x = fat x := by
            intro x hx hxc
            have hxfree : x ≠ free := fun hh => hfreecs (hh ▸ hx)
            simp [fatWrite, hxfree, hxc]
          have hfat2cur : fatWrite (fatWrite fat current free) free FAT_EOF current = free := by
            simp [fatWrite, hcurfree]
          have hfat2free : FAT_EOF ≤ fatWrite (fatWrite fat current free) free FAT_EOF free := by
            simp [fatWrite]
          have hwf1 : WFChain geo (fatWrite (fatWrite fat current free) free FAT_EOF)
              first (cs ++ [free]) := by
            refine ⟨?_, ?_, ?_, ?_⟩
            · cases cs with
              | nil => cases hcne rfl
              | cons a t => simpa using hwf.head_eq
            · exact chainLinks_snoc hwf.links hwf.nodup hlast hagree hfat2cur hfat2free
            · rw [List.nodup_append]
              refine ⟨hwf.nodup, by simp, ?_⟩
              intro a ha hb
              simp only [List.mem_singleton] at hb
              subst hb
              exact hfreecs ha
            · intro c hc
              rcases List.mem_append.mp hc with hc | hc
              · exact hwf.bounds c hc
              · simp only [List.mem_singleton] at hc
                subst hc
                exact ⟨hfree2, hfreeU, hfreeEOF⟩
          obtain ⟨hwfr, hlenr, hlastr⟩ :=
            ih (fatWrite (fatWrite fat current free) free FAT_EOF) (cs ++ [free])
              free first _ _ _ _ hwf1 (Or.inr (List.getLast?_concat _)) hrec
          rw [List.append_cons]
          exact ⟨hwfr, by simp [hlenr], hlastr⟩
      · cases h

/-! ### Arithmetic facts about the cluster-count formula -/

theorem clusterCountOf_eq (n : Nat) : clusterCountOf n = specCeilDiv n CLUSTERSIZE := by
  simp only [clusterCountOf, specCeilDiv, CLUSTERSIZE]
  split <;> omega

theorem le_clusterCountOf_mul (n : Nat) : n ≤ clusterCountOf n * CLUSTERSIZE := by
  simp only [clusterCountOf, CLUSTERSIZE]
  split <;> omega

theorem div_lt_clusterCountOf {off len : Nat} (h : 1 ≤ len) :
    off / CLUSTERSIZE < clusterCountOf (off + len) := by
  simp only [clusterCountOf, CLUSTERSIZE]
  split <;> omega

theorem clusterCountOf_mono {a b : Nat} (h : a ≤ b) :
    clusterCountOf a ≤ clusterCountOf b := by
  simp only [clusterCountOf, CLUSTERSIZE]
  split <;> split <;> omega

/-- Every cluster addressed by the byte-writing loop lies in the chain, or
is the end-of-chain mark read after filling the final cluster exactly;
either way it is at least 2. -/
theorem writeLoopTrace_bounds {fat : Fat} {cs : List Nat}
    (hl : chainLinks fat cs) (hmem : ∀ c ∈ cs, 2 ≤ c) :
    ∀ (l p co : Nat), p < cs.length → co < CLUSTERSIZE →
      co + l ≤ (cs.length - p) * CLUSTERSIZE →
      ∀ x ∈ writeLoopTrace fat (cs.getD p 0) co l, 2 ≤ x := by
  have hEOF : FAT_EOF = 0x0FFFFFF8 := rfl
  intro l
  induction l with
  | zero =>
    intro p co hp hco hcap x hx
    rw [writeLoopTrace] at hx
    simp only [List.mem_singleton] at hx
    subst hx
    exact hmem _ (getD_mem hp)
  | succ l ih =>
    intro p co hp hco hcap x hx
    rw [writeLoopTrace] at hx
    by_cases hcross : co + 1 = CLUSTERSIZE
    · rw [if_pos hcross] at hx
      simp only [List.mem_cons] at hx
      rcases hx with rfl | rfl | hx
      · exact hmem _ (getD_mem hp)
      · by_cases hp1 : p + 1 < cs.length
        · rw [chainLinks_next hl p hp1]
          exact hmem _ (getD_mem hp1)
        · have hne : cs ≠ [] := by
            intro h
            rw [h] at hp
            simp at hp
          have hlastq := getLast?_eq_some_getD hne
          have hp0 : cs.length - 1 = p := by omega
          rw [hp0] at hlastq
          have := chainLinks_getLast hl hlastq
          omega
      · by_cases hp1 : p + 1 < cs.length
        · rw [chainLinks_next hl p hp1] at hx
          refine ih (p + 1) 0 hp1 (by simp [CLUSTERSIZE]) ?_ x hx
          simp only [CLUSTERSIZE] at hcross hcap ⊢
          omega
        · have hl0 : l = 0 := by
            simp only [CLUSTERSIZE] at hcross hcap
            omega
          subst hl0
          rw [writeLoopTrace] at hx
          simp only [List.mem_singleton] at hx
          subst hx
          have hne : cs ≠ [] := by
            intro h
            rw [h] at hp
            simp at hp
          have hlastq := getLast?_eq_some_getD hne
          have hp0 : cs.length - 1 = p := by omega
          rw [hp0] at hlastq
          have := chainLinks_getLast hl hlastq
          omega
    · rw [if_neg hcross] at hx
      exact ih p (co + 1) hp (by omega) (by omega) x hx

/-- A successful allocStep extends the well-formed chain by exactly
`need − have` clusters and preserves well-formedness for the updated FAT
and first cluster. -/
theorem allocStep_extends {geo : Geo} {fat : Fat} {size first off len : Nat}
    {cs : List Nat}
    (husable : geo.usableClusters ≤ FAT_EOF) (hroot : 2 ≤ geo.rootCluster)
    (hwf : WFChain geo fat first cs) (hcount : cs.length = clusterCountOf size)
    {fat2 : Fat} {c2 first2 : Nat} {alloc : List Nat}
    (halloc : allocStep geo fat size first off len = .ok fat2 c2 first2 alloc) :
    WFChain geo fat2 first2 (cs ++ alloc) ∧
      alloc.length = clusterCountOf (off + len) - clusterCountOf size := by
  unfold allocStep at halloc
  split at halloc
  · rw [← hcount] at halloc
    rcases Nat.eq_zero_or_pos cs.length with hcs0 | hcs1
    · have hcsnil : cs = [] := List.length_eq_zero.mp hcs0
      subst hcsnil
      have h0 : clusterCountOf size = 0 := by simpa using hcount.symm
      have hfirst0 : first = 0 := by simpa using hwf.head_eq.symm
      subst hfirst0
      simp only [List.length_nil, Nat.zero_sub, Nat.sub_zero, walkSteps] at halloc
      obtain ⟨hwfr, hlenr, -⟩ :=
        allocExtend husable hroot _ fat [] 0 0 _ _ _ _ hwf (Or.inl ⟨rfl, rfl⟩) halloc
      constructor
      · simpa using hwfr
      · rw [h0, Nat.sub_zero]
        exact hlenr
    · have hcsne : cs ≠ [] := by
        intro h
        rw [h] at hcs1
        simp at hcs1
      have hws := walkSteps_chain hwf.links (cs.length - 1) (by omega)
      rw [hwf.head_eq] at hws
      rw [hws] at halloc
      obtain ⟨hwfr, hlenr, -⟩ :=
        allocExtend husable hroot _ fat cs _ first _ _ _ _ hwf
          (Or.inr (getLast?_eq_some_getD hcsne)) halloc
      rw [← hcount]
      exact ⟨hwfr, hlenr⟩
  · cases halloc
    rename_i hge
    refine ⟨by simpa using hwf, ?_⟩
    simp only [List.length_nil]
    omega

/-! ### Claim C1 -/

/-- C1: a successful write on an existing file with a well-formed chain
allocates exactly `ceil((O+L)/cluster_size) − ceil(size/cluster_size)`
clusters, links them as a tail onto the chain (installing the first
allocated cluster as the entry's first cluster when the chain was empty,
as captured by the well-formedness of the extended chain for the updated
first cluster), and when `O + L > size` the persisted size is `O + L` and
the chain holds exactly `ceil((O+L)/cluster_size)` clusters. -/
theorem write_append_monotonic (geo : Geo) (fat : Fat) (size first off len : Nat)
    (cs : List Nat)
    (husable : geo.usableClusters ≤ FAT_EOF) (hroot : 2 ≤ geo.rootCluster)
    (hwf : WFChain geo fat first cs) (hcount : cs.length = clusterCountOf size)
    (hoff : off ≤ size)
    (hok : (writeBytesToFile geo fat size first off len).err = none) :
    (writeBytesToFile geo fat size first off len).allocated.length =
      specCeilDiv (off + len) CLUSTERSIZE - specCeilDiv size CLUSTERSIZE ∧
    WFChain geo (writeBytesToFile geo fat size first off len).fat
      (writeBytesToFile geo fat size first off len).first
      (cs ++ (writeBytesToFile geo fat size first off len).allocated) ∧
    (size < off + len →
      (writeBytesToFile geo fat size first off len).size = off + len ∧
      (cs ++ (writeBytesToFile geo fat size first off len).allocated).length =
        specCeilDiv (off + len) CLUSTERSIZE) := by
  have hnlt : ¬ size < off := by omega
  unfold writeBytesToFile at hok ⊢
  rw [if_neg hnlt] at hok ⊢
  cases halloc : allocStep geo fat size first off len with
  | fail f =>
    rw [halloc] at hok
    simp at hok
  | ok fat2 c2 first2 alloc =>
    obtain ⟨hwfr, hlenr⟩ := allocStep_extends husable hroot hwf hcount halloc
    refine ⟨?_, ?_, ?_⟩
    · show alloc.length = _
      rw [hlenr, clusterCountOf_eq, clusterCountOf_eq]
    · show WFChain geo fat2 first2 (cs ++ alloc)
      exact hwfr
    · intro hlt2
      constructor
      · show (if size < off + len then off + len else size) = off + len
        rw [if_pos hlt2]
      · show (cs ++ alloc).length = specCeilDiv (off + len) CLUSTERSIZE
        have hmono := clusterCountOf_mono (Nat.le_of_lt hlt2)
        rw [List.length_append, hcount, hlenr]
        rw [clusterCountOf_eq, clusterCountOf_eq] at *
        omega

/-- C1 witness: writing 2000 bytes at offset 0 into an empty file allocates
`ceil(2000/1024) = 2` clusters and sets the size to 2000. -/
theorem write_append_witness :
    (writeBytesToFile exGeo exFatFree 0 0 0 2000).allocated.length =
      specCeilDiv (0 + 2000) CLUSTERSIZE - specCeilDiv 0 CLUSTERSIZE ∧
    (writeBytesToFile exGeo exFatFree 0 0 0 2000).size = 0 + 2000 := by
  have h := write_append_monotonic exGeo exFatFree 0 0 0 2000 [] (by decide) (by decide)
    ⟨rfl, trivial, List.nodup_nil, by simp⟩ (by decide) (by decide) (by decide)
  exact ⟨h.1, (h.2.2 (by decide)).1⟩

/-! ### Claim C9 -/

/-- C9 (amended): during a write of at least one byte to an existing file
with a well-formed chain, every cluster number passed to read_cluster or
write_cluster — including the root-directory read — is at least 2.  (A
write of length 0 to an empty file violates this: see the
counterexample.) -/
theorem write_trace_clusters_ge_two (geo : Geo) (fat : Fat) (size first off len : Nat)
    (cs : List Nat)
    (husable : geo.usableClusters ≤ FAT_EOF) (hroot : 2 ≤ geo.rootCluster)
    (hwf : WFChain geo fat first cs) (hcount : cs.length = clusterCountOf size)
    (hoff : off ≤ size) (hlen : 1 ≤ len) :
    ∀ c ∈ (writeBytesToFile geo fat size first off len).trace, 2 ≤ c := by
  have hnlt : ¬ size < off := by omega
  unfold writeBytesToFile
  rw [if_neg hnlt]
  cases halloc : allocStep geo fat size first off len with
  | fail f =>
    intro c hc
    simp only [List.mem_singleton] at hc
    subst hc
    omega
  | ok fat2 c2 first2 alloc =>
    obtain ⟨hwfr, hlenr⟩ := allocStep_extends husable hroot hwf hcount halloc
    have hneed : clusterCountOf (off + len) ≤ (cs ++ alloc).length := by
      rw [List.length_append, hcount, hlenr]
      omega
    have hn : off / CLUSTERSIZE < (cs ++ alloc).length :=
      Nat.lt_of_lt_of_le (div_lt_clusterCountOf hlen) hneed
    have hwalk : walkSteps fat2 first2 (off / CLUSTERSIZE) =
        (cs ++ alloc).getD (off / CLUSTERSIZE) 0 := by
      have := walkSteps_chain hwfr.links (off / CLUSTERSIZE) hn
      rw [hwfr.head_eq] at this
      exact this
    intro x hx
    simp only [List.mem_cons] at hx
    rcases hx with rfl | rfl | hx
    · omega
    · rw [hwalk]
      exact (hwfr.bounds _ (getD_mem hn)).1
    · rw [hwalk] at hx
      refine writeLoopTrace_bounds hwfr.links (fun c hc => (hwfr.bounds c hc).1)
        len (off / CLUSTERSIZE) (off % CLUSTERSIZE) hn
        (Nat.mod_lt _ (by simp [CLUSTERSIZE])) ?_ x hx
      have h1 : off + len ≤ clusterCountOf (off + len) * CLUSTERSIZE :=
        le_clusterCountOf_mul _
      simp only [CLUSTERSIZE] at h1 ⊢
      omega

/-- C9 counterexample: a write of length 0 at offset 0 to an empty file
succeeds while passing cluster 0 to read_cluster and write_cluster, whose
computed offset lies 2 clusters before the data region. -/
theorem write_cluster_zero_counterexample :
    (writeBytesToFile exGeo exFatFree 0 0 0 0).err = none ∧
    0 ∈ (writeBytesToFile exGeo exFatFree 0 0 0 0).trace := by
  exact ⟨by decide, by decide⟩

/-- C9 witness: a 3-byte write to an empty file addresses only clusters
that are at least 2 (the first trace entry is the root-directory read). -/
theorem write_trace_witness :
    2 ≤ (writeBytesToFile exGeo exFatFree 0 0 0 3).trace.headD 0 :=
  write_trace_clusters_ge_two exGeo exFatFree 0 0 0 3 [] (by decide) (by decide)
    ⟨rfl, trivial, List.nodup_nil, by simp⟩ (by decide) (by decide) (by decide)
    _ (by decide)

end Fatmod
